import Mathlib

/-!
Verification of the Sudoku board model and constraint-propagation engine
(`Cell`, `Board`, `update_one_cell`, `update_all_cell`, `valid`, …) from
`src/src/main.py`.

The Python board stores its cells in an unordered `set` of distinct cell
objects and mutates them in place.  We embed the board as a `List Cell`:
the position of a cell in the list plays the role of the object's
identity, and the list order models the (unspecified) iteration order of
the Python set.  A pass of the propagation loop visits the positions
`0, …, n-1` in list order, exactly as `for cell in self._cells` visits
every object of the set once in a fixed enumeration order.

Machine integers are embedded as `ℕ` (the program only handles small
non-negative cell indices and values, and no overflow is possible).
`None` becomes `Option.none`.  A Python `set` of small ints becomes a
`Finset ℕ`; removing a set that may contain `None` from a set of ints
(`self._candidates -= candidates`) removes only the decided values, so
the remove set is embedded as the `Finset` of decided peer values.
-/

namespace SudokuMain

/-- A cell of the board: `Cell.__init__` stores the linear id, the derived
column `_x`, row `_y` and block `_block`, the optional value, and the
candidate set. -/
structure Cell where
  cell_id : ℕ
  x : ℕ
  y : ℕ
  block : ℕ
  value : Option ℕ
  candidates : Finset ℕ
deriving DecidableEq

/-- Integer square root: the largest `r ≤ n` with `r * r ≤ n`.  This is
the value of Python's `int(size**0.5)` (for perfect squares the float
square root is exact, and `size_root (r * r) = r` is proved below). -/
def size_root (n : ℕ) : ℕ :=
  (((List.range (n + 1)).filter fun r => r * r ≤ n).getLastD 0)

/-- `Cell.get_pos`: `x = pos % size`, `y = pos // size`,
`blk = size_root * (y // size_root) + (x // size_root)` where
`size_root = int(size**0.5)`. -/
def get_pos (pos size : ℕ) : ℕ × ℕ × ℕ :=
  let x := pos % size
  let y := pos / size
  let sr := size_root size
  (x, y, sr * (y / sr) + (x / sr))

/-- `Cell.__init__(pos, value, size)`: the value is kept only if it lies
in `range(1, size+1)`; the candidates are `{i in 1..size, i != value}`. -/
def Cell.init (pos value size : ℕ) : Cell :=
  { cell_id := pos
    x := (get_pos pos size).1
    y := (get_pos pos size).2.1
    block := (get_pos pos size).2.2
    value := if 1 ≤ value ∧ value ≤ size then some value else none
    candidates := (Finset.Icc 1 size).filter (fun i => i ≠ value) }

/-- `Cell.valid`: a decided cell must have an empty candidate set, an
undecided cell a non-empty one. -/
def Cell.valid (c : Cell) : Bool :=
  match c.value with
  | none => !(c.candidates.card == 0)
  | some _ => c.candidates.card == 0

/-- `Cell.remove_candidates`: `self._candidates -= candidates`. -/
def Cell.remove_candidates (c : Cell) (rem : Finset ℕ) : Cell :=
  { c with candidates := c.candidates \ rem }

/-- `Cell.decide`: if the cell is undecided and exactly one candidate
remains, pop it into the value (leaving the candidate set empty).
`pop()` on a one-element set returns its unique element, extracted here
as `fold max 0`, which agrees on singletons. -/
def Cell.decide (c : Cell) : Cell :=
  match c.value with
  | some _ => c
  | none =>
    if c.candidates.card = 1 then
      { c with value := some (c.candidates.fold max 0 id), candidates := ∅ }
    else c

/-- `Cell.update_cell`: remove the given candidates, then try to decide. -/
def Cell.update_cell (c : Cell) (rem : Finset ℕ) : Cell :=
  (c.remove_candidates rem).decide

/-- The board: a collection of cells and a size.  List position models
object identity inside the Python `set`. -/
structure Board where
  cells : List Cell
  size : ℕ
deriving DecidableEq

/-- `Board.__init__`: raises (here: `none`) unless exactly `size**2`
initial values are supplied; otherwise builds `Cell(i, v, size)` for each
`i, v` in `enumerate(cells)`. -/
def Board.init (vals : List ℕ) (size : ℕ) : Option Board :=
  if vals.length ≠ size ^ 2 then none
  else some ⟨vals.enum.map (fun iv => Cell.init iv.1 iv.2 size), size⟩

/-- `Board.get_col`: the cells whose column is `col_num`. -/
def Board.get_col (b : Board) (col_num : ℕ) : List Cell :=
  b.cells.filter (fun c => c.x = col_num)

/-- `Board.get_row`: the cells whose row is `row_num`. -/
def Board.get_row (b : Board) (row_num : ℕ) : List Cell :=
  b.cells.filter (fun c => c.y = row_num)

/-- `Board.get_block`: the cells whose block is `block_num`. -/
def Board.get_block (b : Board) (block_num : ℕ) : List Cell :=
  b.cells.filter (fun c => c.block = block_num)

/-- `Board.get_cell`: the first (in a well-formed board: unique) cell of
the given id; the Python code indexes `[0]` into the filtered list and
would crash on a missing id, embedded as `Option`. -/
def Board.get_cell (b : Board) (i : ℕ) : Option Cell :=
  (b.cells.filter (fun c => c.cell_id = i)).head?

/-- The decided values of a list of cells, in list order:
`filter(lambda v: v is not None, map(value, target))`. -/
def decidedValues (target : List Cell) : List ℕ :=
  target.filterMap (fun c => c.value)

/-- The `check` closure of `Board.valid`:
`len(filtered) == len(set(filtered))`. -/
def checkGroup (target : List Cell) : Bool :=
  (decidedValues target).length == (decidedValues target).dedup.length

/-- `Board.valid`: every column, row and block passes `check`. -/
def Board.valid (b : Board) : Bool :=
  ((List.range b.size).all fun i => checkGroup (b.get_col i)) &&
  ((List.range b.size).all fun i => checkGroup (b.get_row i)) &&
  ((List.range b.size).all fun i => checkGroup (b.get_block i))

/-- `Board.fill`: every cell of every row is decided. -/
def Board.fill (b : Board) : Bool :=
  (List.range b.size).all fun i => (b.get_row i).all fun c => c.value.isSome

/-- `Board.is_solved`. -/
def Board.is_solved (b : Board) : Bool :=
  b.fill && b.valid

/-- The union of decided values of the cell's column, row and block, as
computed by `Board.update_one_cell`.  (The Python union also contains
`None` for undecided peers, which is irrelevant when subtracted from a
set of ints.) -/
def Board.remove_set (b : Board) (c : Cell) : Finset ℕ :=
  (decidedValues (b.get_col c.x)).toFinset ∪
  (decidedValues (b.get_row c.y)).toFinset ∪
  (decidedValues (b.get_block c.block)).toFinset

/-- `Board.update_one_cell(cell)`: update the cell at list position `k`
(the position models the identity of the cell object passed in) and
report whether its candidate set changed. -/
def Board.update_one_cell (b : Board) (k : ℕ) : Board × Bool :=
  match b.cells[k]? with
  | none => (b, false)
  | some c =>
    let rem := b.remove_set c
    let c' := c.update_cell rem
    (⟨b.cells.set k c', b.size⟩, decide (c'.candidates ≠ c.candidates))

/-- One inner `for cell in self._cells` pass of `Board.update_all_cell`,
visiting the given list positions and accumulating the update flag. -/
def passCells : Board → List ℕ → Bool → Board × Bool
  | b, [], flag => (b, flag)
  | b, k :: ks, flag =>
    let r := b.update_one_cell k
    passCells r.1 ks (flag || r.2)

/-- One full pass over all cells of the board. -/
def Board.pass (b : Board) : Board × Bool :=
  passCells b (List.range b.cells.length) false

/-- Total number of candidates on the board; each changing pass strictly
decreases it, which bounds the `while True` loop of
`Board.update_all_cell`. -/
def Board.mass (b : Board) : ℕ :=
  (b.cells.map fun c => c.candidates.card).sum

/-- The `while True` loop of `Board.update_all_cell`, with explicit fuel:
run passes until one reports no update. -/
def updateLoop : ℕ → Board → Board
  | 0, b => b
  | fuel + 1, b =>
    let r := b.pass
    if r.2 then updateLoop fuel r.1 else r.1

/-- `Board.update_all_cell`: the loop always terminates within
`mass + 1` passes, so this fuel is sufficient (proved below). -/
def Board.update_all_cell (b : Board) : Board :=
  updateLoop (b.mass + 1) b

/-- Number of full passes (the final, update-free pass included) the
loop of `Board.update_all_cell` executes, with explicit fuel. -/
def passCount : ℕ → Board → Option ℕ
  | 0, _ => none
  | fuel + 1, b =>
    let r := b.pass
    if r.2 then (passCount fuel r.1).map (· + 1) else some 1

/-- Apply a sequence of `update_one_cell` calls. -/
def applyUpdates (b : Board) : List ℕ → Board
  | [] => b
  | k :: ks => applyUpdates (b.update_one_cell k).1 ks

/-- The cell at list position `j` (a harmless dummy out of range). -/
def Board.cellAt (b : Board) (j : ℕ) : Cell :=
  b.cells.getD j (Cell.init 0 0 0)

/-- Two cells are peers when they share a column, a row or a block. -/
def peersB (c d : Cell) : Bool :=
  c.x == d.x || c.y == d.y || c.block == d.block

/-- A pair of cells is conflict-free when they are not both decided to
the same value while being peers. -/
def okPair (c d : Cell) : Bool :=
  match c.value, d.value with
  | some v, some w => !peersB c d || v != w
  | _, _ => true

/-- Every unordered pair of distinct cells of the list is conflict-free. -/
def pairwiseOk : List Cell → Bool
  | [] => true
  | c :: l => (l.all fun d => okPair c d) && pairwiseOk l

/-- A board is contradiction-free when no two decided peer cells carry
the same value. -/
def Board.conflictFree (b : Board) : Bool :=
  pairwiseOk b.cells

/-- The ids of column `i` among the `size*size` linear ids, per the
geometry of `Cell.get_pos`. -/
def colFiber (s i : ℕ) : Finset ℕ :=
  (Finset.range (s * s)).filter fun p => (get_pos p s).1 = i

/-- The ids of row `i` among the `size*size` linear ids. -/
def rowFiber (s i : ℕ) : Finset ℕ :=
  (Finset.range (s * s)).filter fun p => (get_pos p s).2.1 = i

/-- The ids of block `i` among the `size*size` linear ids. -/
def blockFiber (s i : ℕ) : Finset ℕ :=
  (Finset.range (s * s)).filter fun p => (get_pos p s).2.2 = i

/-- Initial values of a contradiction-free 4×4 board on which the
propagation loop needs 7 full passes. -/
def slowVals : List ℕ := [2, 0, 4, 0, 3, 0, 0, 0, 0, 0, 0, 0, 0, 0, 0, 3]

/-- The cells of `slowVals`, held in an adversarial iteration order (a
permutation of the ids, as the backing Python `set` is free to produce). -/
def slowBoard : Board :=
  ⟨[9, 8, 12, 15, 4, 0, 7, 10, 14, 6, 13, 5, 11, 1, 2, 3].map
      (fun i => Cell.init i (slowVals.getD i 0) 4), 4⟩

/-- Initial values of a contradiction-free 4×4 board whose propagation
outcome depends on the cell iteration order: cells 0 and 1 both reach
the single candidate 4 and whichever is visited first claims it. -/
def orderVals : List ℕ := [0, 0, 3, 0, 1, 2, 0, 0, 0, 0, 0, 0, 0, 0, 0, 0]

/-- The `orderVals` board with its cells enumerated in id order. -/
def orderBoardA : Board :=
  ⟨(List.range 16).map (fun i => Cell.init i (orderVals.getD i 0) 4), 4⟩

/-- The same sixteen cells, enumerated with cells 0 and 1 transposed. -/
def orderBoardB : Board :=
  ⟨[1, 0, 2, 3, 4, 5, 6, 7, 8, 9, 10, 11, 12, 13, 14, 15].map
      (fun i => Cell.init i (orderVals.getD i 0) 4), 4⟩

/-- A contradiction-free 4×4 board whose cell 0 is over-constrained: its
row peers hold 1 and 2, its column peers 3 and 4, so propagation drives
its candidate set to ∅ with no value. -/
def contraBoard : Board :=
  ⟨(List.range 16).map
      (fun i => Cell.init i (([0, 1, 2, 0, 3, 0, 0, 0, 4, 0, 0, 0,
        0, 0, 0, 0] : List ℕ).getD i 0) 4), 4⟩

/-- A small concrete board used to witness hypotheses of the universal
theorems. -/
def demoBoard : Board :=
  ⟨(List.range 16).map
      (fun i => Cell.init i (([1, 0, 0, 0, 0, 2, 0, 0, 0, 0, 3, 0,
        0, 0, 0, 4] : List ℕ).getD i 0) 4), 4⟩

end SudokuMain

/-! ### Basic facts about `Cell.update_cell` -/

namespace SudokuMain

theorem Cell.update_cell_some_eq (i x y blk v : ℕ) (cand rem : Finset ℕ) :
    Cell.update_cell ⟨i, x, y, blk, some v, cand⟩ rem =
      ⟨i, x, y, blk, some v, cand \ rem⟩ := rfl

theorem Cell.update_cell_none_eq (i x y blk : ℕ) (cand rem : Finset ℕ) :
    Cell.update_cell ⟨i, x, y, blk, none, cand⟩ rem =
      (if (cand \ rem).card = 1 then
        ⟨i, x, y, blk, some ((cand \ rem).fold max 0 id), ∅⟩
      else ⟨i, x, y, blk, none, cand \ rem⟩ : Cell) := rfl

theorem Cell.update_cell_fields (c : Cell) (rem : Finset ℕ) :
    (c.update_cell rem).cell_id = c.cell_id ∧ (c.update_cell rem).x = c.x ∧
    (c.update_cell rem).y = c.y ∧ (c.update_cell rem).block = c.block := by
  obtain ⟨i, x, y, blk, v, cand⟩ := c
  cases v with
  | some v => rw [Cell.update_cell_some_eq]; exact ⟨rfl, rfl, rfl, rfl⟩
  | none =>
    rw [Cell.update_cell_none_eq]
    split <;> exact ⟨rfl, rfl, rfl, rfl⟩

theorem Cell.update_cell_value_some (c : Cell) (rem : Finset ℕ) (v : ℕ)
    (h : c.value = some v) : (c.update_cell rem).value = some v := by
  obtain ⟨i, x, y, blk, w, cand⟩ := c
  cases w with
  | some w => rw [Cell.update_cell_some_eq]; exact h
  | none => exact absurd h (by simp)

theorem Cell.update_cell_candidates_cases (c : Cell) (rem : Finset ℕ) :
    (c.update_cell rem).candidates = c.candidates \ rem ∨
    (c.update_cell rem).candidates = ∅ := by
  obtain ⟨i, x, y, blk, v, cand⟩ := c
  cases v with
  | some v => left; rw [Cell.update_cell_some_eq]
  | none =>
    rw [Cell.update_cell_none_eq]
    split
    · right; rfl
    · left; rfl

theorem Cell.update_cell_candidates_subset (c : Cell) (rem : Finset ℕ) :
    (c.update_cell rem).candidates ⊆ c.candidates := by
  rcases Cell.update_cell_candidates_cases c rem with h | h <;> rw [h]
  · exact fun a ha => (Finset.mem_sdiff.mp ha).1
  · exact Finset.empty_subset _

theorem Cell.update_cell_value_cases (c : Cell) (rem : Finset ℕ) :
    (c.update_cell rem).value = c.value ∨
    (c.value = none ∧ ∃ v, (c.update_cell rem).value = some v ∧
      c.candidates \ rem = {v}) := by
  obtain ⟨i, x, y, blk, w, cand⟩ := c
  cases w with
  | some w => left; rw [Cell.update_cell_some_eq]
  | none =>
    rw [Cell.update_cell_none_eq]
    by_cases h : (cand \ rem).card = 1
    · right
      obtain ⟨v, hv⟩ := Finset.card_eq_one.mp h
      refine ⟨rfl, v, ?_, hv⟩
      rw [if_pos h, hv]
      simp [Finset.fold_singleton]
    · left
      rw [if_neg h]

theorem Cell.update_cell_eq_of_candidates_eq (c : Cell) (rem : Finset ℕ)
    (h : (c.update_cell rem).candidates = c.candidates) :
    c.update_cell rem = c := by
  obtain ⟨i, x, y, blk, v, cand⟩ := c
  cases v with
  | some v =>
    rw [Cell.update_cell_some_eq] at h ⊢
    simp only [Cell.mk.injEq, and_true, true_and]
    simpa using h
  | none =>
    rw [Cell.update_cell_none_eq] at h ⊢
    by_cases h1 : (cand \ rem).card = 1
    · rw [if_pos h1] at h
      simp only at h
      rw [← h] at h1
      simp at h1
    · rw [if_neg h1] at h ⊢
      simp only at h
      simp only [Cell.mk.injEq, and_true, true_and]
      simpa using h

end SudokuMain

/-! ### C1: the cell invariant at construction -/

namespace SudokuMain

/-- C1, counterexample: the cell built by `Cell(0, 1, 4)` — position 0,
initial value 1 ∈ [1, 4], board size 4 — has its value set AND a
non-empty candidate set `{2, 3, 4}`, so neither arm of the claimed
invariant ("value set and candidates empty, or value unset and
candidates non-empty") holds immediately after construction. -/
theorem C1_cell_invariant_counterexample :
    (1 ≤ 1 ∧ 1 ≤ 4) ∧
    (Cell.init 0 1 4).value = some 1 ∧
    (Cell.init 0 1 4).candidates = {2, 3, 4} ∧
    ¬ (((Cell.init 0 1 4).value ≠ none ∧ (Cell.init 0 1 4).candidates = ∅) ∨
       ((Cell.init 0 1 4).value = none ∧ (Cell.init 0 1 4).candidates ≠ ∅)) := by
  refine ⟨⟨le_refl 1, by decide⟩, by decide, by decide, by decide⟩

/-- C1, amended: after construction with an initial value in `[1, size]`
the value is set but the candidate set is `{1..size}` minus that value,
which is non-empty whenever `size ≥ 2` (so `Cell.valid` is `false` for
such a cell); after construction with an out-of-range initial value the
value is unset and the candidate set is all of `{1..size}`, non-empty
whenever `size ≥ 1`.  The claimed equivalence "value set ↔ candidates
empty" therefore fails at construction for every decided cell of a board
of size ≥ 2, though the "value unset → candidates non-empty" half does
hold at construction. -/
theorem C1_cell_invariant_amended (pos value size : ℕ) :
    (1 ≤ value → value ≤ size →
      (Cell.init pos value size).value = some value ∧
      (Cell.init pos value size).candidates = (Finset.Icc 1 size).erase value ∧
      (2 ≤ size → (Cell.init pos value size).candidates ≠ ∅ ∧
        (Cell.init pos value size).valid = false)) ∧
    (¬ (1 ≤ value ∧ value ≤ size) →
      (Cell.init pos value size).value = none ∧
      (Cell.init pos value size).candidates = Finset.Icc 1 size ∧
      (1 ≤ size → (Cell.init pos value size).candidates ≠ ∅)) := by
  constructor
  · intro h1 h2
    have hval : (Cell.init pos value size).value = some value := by
      simp [Cell.init, h1, h2]
    have hcand : (Cell.init pos value size).candidates =
        (Finset.Icc 1 size).erase value := by
      simp [Cell.init, Finset.filter_ne']
    refine ⟨hval, hcand, fun hs => ?_⟩
    have hne : (Cell.init pos value size).candidates ≠ ∅ := by
      rw [hcand]
      have : ∃ w, w ∈ (Finset.Icc 1 size).erase value := by
        by_cases hv : value = 1
        · exact ⟨2, Finset.mem_erase.mpr ⟨by omega, Finset.mem_Icc.mpr (by omega)⟩⟩
        · exact ⟨1, Finset.mem_erase.mpr ⟨by omega, Finset.mem_Icc.mpr (by omega)⟩⟩
      obtain ⟨w, hw⟩ := this
      exact Finset.ne_empty_of_mem hw
    refine ⟨hne, ?_⟩
    have hc : (Cell.init pos value size).candidates.card ≠ 0 := by
      simpa [Finset.card_eq_zero] using hne
    rw [Cell.valid]
    rw [hval]
    simpa using hc
  · intro h
    have hval : (Cell.init pos value size).value = none := by
      simp only [Cell.init]
      rw [if_neg h]
    have hcand : (Cell.init pos value size).candidates = Finset.Icc 1 size := by
      simp only [Cell.init]
      refine Finset.filter_true_of_mem fun i hi => ?_
      rcases Finset.mem_Icc.mp hi with ⟨hi1, hi2⟩
      intro hiv
      exact h (hiv ▸ ⟨hi1, hi2⟩)
    refine ⟨hval, hcand, fun hs => ?_⟩
    rw [hcand]
    exact Finset.ne_empty_of_mem (Finset.mem_Icc.mpr ⟨le_refl 1, hs⟩)

/-- C1, witness for the amended theorem at `Cell(0, 1, 4)` and
`Cell(5, 0, 4)`. -/
theorem C1_cell_invariant_amended_witness :
    ((Cell.init 0 1 4).value = some 1 ∧ (Cell.init 0 1 4).candidates ≠ ∅ ∧
      (Cell.init 0 1 4).valid = false) ∧
    ((Cell.init 5 0 4).value = none ∧ (Cell.init 5 0 4).candidates ≠ ∅) := by
  have h1 := (C1_cell_invariant_amended 0 1 4).1 (by decide) (by decide)
  have h2 := (C1_cell_invariant_amended 5 0 4).2 (by decide)
  exact ⟨⟨h1.1, (h1.2.2 (by decide)).1, (h1.2.2 (by decide)).2⟩,
    ⟨h2.1, h2.2.2 (by decide)⟩⟩

end SudokuMain

/-! ### List helper lemmas -/

namespace SudokuMain

theorem list_set_self {α : Type} (l : List α) : ∀ (k : ℕ) (c : α),
    l[k]? = some c → l.set k c = l := by
  induction l with
  | nil => intro k c h; simp at h
  | cons a t ih =>
    intro k c h
    cases k with
    | zero =>
      simp only [List.getElem?_cons_zero, Option.some.injEq] at h
      simp [List.set, h]
    | succ k =>
      simp only [List.getElem?_cons_succ] at h
      simp [List.set, ih k c h]

theorem sum_map_set {α : Type} (f : α → ℕ) (l : List α) : ∀ (k : ℕ) (c c' : α),
    l[k]? = some c →
    ((l.set k c').map f).sum + f c = (l.map f).sum + f c' := by
  induction l with
  | nil => intro k c c' h; simp at h
  | cons a t ih =>
    intro k c c' h
    cases k with
    | zero =>
      simp only [List.getElem?_cons_zero, Option.some.injEq] at h
      subst h
      simp [List.set]
      omega
    | succ k =>
      simp only [List.getElem?_cons_succ] at h
      have hih := ih k c c' h
      simp only [List.set, List.map_cons, List.sum_cons]
      omega

theorem mem_of_getElem?_some {α : Type} (l : List α) : ∀ (k : ℕ) (c : α),
    l[k]? = some c → c ∈ l := by
  induction l with
  | nil => intro k c h; simp at h
  | cons a t ih =>
    intro k c h
    cases k with
    | zero =>
      simp only [List.getElem?_cons_zero, Option.some.injEq] at h
      simp [h]
    | succ k =>
      simp only [List.getElem?_cons_succ] at h
      exact List.mem_cons_of_mem a (ih k c h)

end SudokuMain

/-! ### Facts about `Board.update_one_cell` -/

namespace SudokuMain

theorem Board.update_one_cell_none (b : Board) (k : ℕ)
    (h : b.cells[k]? = none) : b.update_one_cell k = (b, false) := by
  simp only [Board.update_one_cell, h]

theorem Board.update_one_cell_some (b : Board) (k : ℕ) (c : Cell)
    (h : b.cells[k]? = some c) :
    b.update_one_cell k =
      (⟨b.cells.set k (c.update_cell (b.remove_set c)), b.size⟩,
        decide ((c.update_cell (b.remove_set c)).candidates ≠ c.candidates)) := by
  simp only [Board.update_one_cell, h]

theorem Board.update_one_cell_size (b : Board) (k : ℕ) :
    (b.update_one_cell k).1.size = b.size := by
  cases h : b.cells[k]? with
  | none => rw [Board.update_one_cell_none b k h]
  | some c => rw [Board.update_one_cell_some b k c h]

theorem Board.update_one_cell_length (b : Board) (k : ℕ) :
    (b.update_one_cell k).1.cells.length = b.cells.length := by
  cases h : b.cells[k]? with
  | none => rw [Board.update_one_cell_none b k h]
  | some c => rw [Board.update_one_cell_some b k c h]; exact List.length_set ..

theorem Board.update_one_cell_fst_of_snd_false (b : Board) (k : ℕ)
    (h : (b.update_one_cell k).2 = false) : (b.update_one_cell k).1 = b := by
  cases hc : b.cells[k]? with
  | none => rw [Board.update_one_cell_none b k hc]
  | some c =>
    rw [Board.update_one_cell_some b k c hc] at h ⊢
    simp only [decide_eq_false_iff_not, ne_eq, not_not] at h
    have hcc := Cell.update_cell_eq_of_candidates_eq c (b.remove_set c) h
    rw [hcc]
    cases b with
    | mk cells size => simp [list_set_self cells k c hc]

theorem Board.update_one_cell_mass_le (b : Board) (k : ℕ) :
    (b.update_one_cell k).1.mass ≤ b.mass := by
  cases hc : b.cells[k]? with
  | none => rw [Board.update_one_cell_none b k hc]
  | some c =>
    rw [Board.update_one_cell_some b k c hc]
    have hsum := sum_map_set (fun c => c.candidates.card) b.cells k c
      (c.update_cell (b.remove_set c)) hc
    have hle : (c.update_cell (b.remove_set c)).candidates.card ≤ c.candidates.card :=
      Finset.card_le_card (Cell.update_cell_candidates_subset c (b.remove_set c))
    simp only [Board.mass] at *
    omega

theorem Board.update_one_cell_mass_lt (b : Board) (k : ℕ)
    (h : (b.update_one_cell k).2 = true) : (b.update_one_cell k).1.mass < b.mass := by
  cases hc : b.cells[k]? with
  | none => rw [Board.update_one_cell_none b k hc] at h; simp at h
  | some c =>
    rw [Board.update_one_cell_some b k c hc] at h ⊢
    simp only [decide_eq_true_eq, ne_eq] at h
    have hss : (c.update_cell (b.remove_set c)).candidates ⊂ c.candidates :=
      ssubset_of_subset_of_ne (Cell.update_cell_candidates_subset c (b.remove_set c)) h
    have hlt : (c.update_cell (b.remove_set c)).candidates.card < c.candidates.card :=
      Finset.card_lt_card hss
    have hsum := sum_map_set (fun c => c.candidates.card) b.cells k c
      (c.update_cell (b.remove_set c)) hc
    simp only [Board.mass] at *
    omega

theorem Board.update_one_cell_cellAt_subset (b : Board) (k j : ℕ) :
    ((b.update_one_cell k).1.cellAt j).candidates ⊆ (b.cellAt j).candidates := by
  cases hc : b.cells[k]? with
  | none => rw [Board.update_one_cell_none b k hc]
  | some c =>
    rw [Board.update_one_cell_some b k c hc]
    by_cases hkj : k = j
    · subst hkj
      have hk : k < b.cells.length := by
        by_contra hk
        rw [List.getElem?_eq_none (by omega)] at hc
        exact Option.noConfusion hc
      simp only [Board.cellAt, List.getD_eq_getElem?_getD]
      rw [List.getElem?_set_self hk, hc]
      simp only [Option.getD_some]
      exact Cell.update_cell_candidates_subset c (b.remove_set c)
    · simp only [Board.cellAt, List.getD_eq_getElem?_getD]
      rw [List.getElem?_set_ne hkj]

end SudokuMain

/-! ### Facts about a full pass and the fixed-point loop -/

namespace SudokuMain

theorem passCells_snd_acc_true (ks : List ℕ) : ∀ (b : Board),
    (passCells b ks true).2 = true := by
  induction ks with
  | nil => intro b; rfl
  | cons k ks ih => intro b; simp only [passCells, Bool.true_or]; exact ih _

theorem passCells_length (ks : List ℕ) : ∀ (b : Board) (flag : Bool),
    (passCells b ks flag).1.cells.length = b.cells.length := by
  induction ks with
  | nil => intro b flag; rfl
  | cons k ks ih =>
    intro b flag
    simp only [passCells]
    rw [ih]
    exact Board.update_one_cell_length b k

theorem passCells_mass_le (ks : List ℕ) : ∀ (b : Board) (flag : Bool),
    (passCells b ks flag).1.mass ≤ b.mass := by
  induction ks with
  | nil => intro b flag; exact le_refl _
  | cons k ks ih =>
    intro b flag
    simp only [passCells]
    exact le_trans (ih _ _) (Board.update_one_cell_mass_le b k)

theorem passCells_snd_false (ks : List ℕ) : ∀ (b : Board) (flag : Bool),
    (passCells b ks flag).2 = false →
    flag = false ∧ (passCells b ks flag).1 = b := by
  induction ks with
  | nil => intro b flag h; exact ⟨h, rfl⟩
  | cons k ks ih =>
    intro b flag h
    simp only [passCells] at h ⊢
    obtain ⟨hor, hfst⟩ := ih _ _ h
    have hflag : flag = false := by
      cases flag
      · rfl
      · simp at hor
    have hsnd : (b.update_one_cell k).2 = false := by
      cases hu : (b.update_one_cell k).2
      · rfl
      · rw [hu] at hor; simp at hor
    have hb : (b.update_one_cell k).1 = b :=
      Board.update_one_cell_fst_of_snd_false b k hsnd
    rw [hb] at hfst
    rw [hb]
    exact ⟨hflag, hfst⟩

theorem passCells_mass_lt (ks : List ℕ) : ∀ (b : Board),
    (passCells b ks false).2 = true → (passCells b ks false).1.mass < b.mass := by
  induction ks with
  | nil => intro b h; simp [passCells] at h
  | cons k ks ih =>
    intro b h
    simp only [passCells, Bool.false_or] at h ⊢
    cases hu : (b.update_one_cell k).2 with
    | true =>
      have h1 : (b.update_one_cell k).1.mass < b.mass :=
        Board.update_one_cell_mass_lt b k hu
      have h2 := passCells_mass_le ks (b.update_one_cell k).1 true
      omega
    | false =>
      have hb : (b.update_one_cell k).1 = b :=
        Board.update_one_cell_fst_of_snd_false b k hu
      rw [hu] at h
      rw [hb] at h ⊢
      exact ih b h

theorem passCells_update_false (ks : List ℕ) : ∀ (b : Board),
    (passCells b ks false).2 = false →
    ∀ k ∈ ks, b.update_one_cell k = (b, false) := by
  induction ks with
  | nil => intro b _ k hk; simp at hk
  | cons k0 ks ih =>
    intro b h k hk
    simp only [passCells, Bool.false_or] at h
    have hsnd : (b.update_one_cell k0).2 = false := by
      cases hu : (b.update_one_cell k0).2
      · rfl
      · rw [hu] at h
        rw [passCells_snd_acc_true] at h
        exact Bool.noConfusion h
    have hb : (b.update_one_cell k0).1 = b :=
      Board.update_one_cell_fst_of_snd_false b k0 hsnd
    rw [hsnd, hb] at h
    rcases List.mem_cons.mp hk with hk0 | hks
    · subst hk0
      calc b.update_one_cell k = ((b.update_one_cell k).1, (b.update_one_cell k).2) := rfl
        _ = (b, false) := by rw [hb, hsnd]
    · exact ih b h k hks

theorem pass_snd_false_fixed (b : Board) (h : (b.pass).2 = false) :
    (b.pass).1 = b := (passCells_snd_false _ b false h).2

theorem updateLoop_pass_false (fuel : ℕ) : ∀ (b : Board), b.mass < fuel →
    ((updateLoop fuel b).pass).2 = false := by
  induction fuel with
  | zero => intro b h; omega
  | succ fuel ih =>
    intro b h
    cases hr : (b.pass).2 with
    | true =>
      have hlt : (b.pass).1.mass < b.mass := passCells_mass_lt _ b hr
      have : updateLoop (fuel + 1) b = updateLoop fuel (b.pass).1 := by
        simp [updateLoop, hr]
      rw [this]
      exact ih _ (by omega)
    | false =>
      have : updateLoop (fuel + 1) b = (b.pass).1 := by
        simp [updateLoop, hr]
      rw [this, pass_snd_false_fixed b hr, hr]

theorem update_all_cell_pass (b : Board) :
    (b.update_all_cell).pass = (b.update_all_cell, false) := by
  have h : ((b.update_all_cell).pass).2 = false :=
    updateLoop_pass_false (b.mass + 1) b (by omega)
  have h1 : ((b.update_all_cell).pass).1 = b.update_all_cell :=
    pass_snd_false_fixed _ h
  calc (b.update_all_cell).pass
      = (((b.update_all_cell).pass).1, ((b.update_all_cell).pass).2) := rfl
    _ = (b.update_all_cell, false) := by rw [h, h1]

theorem update_all_cell_update_false (b : Board) (k : ℕ) :
    (b.update_all_cell).update_one_cell k = (b.update_all_cell, false) := by
  by_cases hk : k < (b.update_all_cell).cells.length
  · have h : (((b.update_all_cell).pass)).2 = false := by
      rw [update_all_cell_pass]
    exact passCells_update_false _ _ h k (List.mem_range.mpr hk)
  · exact Board.update_one_cell_none _ k (List.getElem?_eq_none (by omega))

theorem passCount_terminates (fuel : ℕ) : ∀ (b : Board), b.mass < fuel →
    ∃ k, passCount fuel b = some k ∧ k ≤ b.mass + 1 := by
  induction fuel with
  | zero => intro b h; omega
  | succ fuel ih =>
    intro b h
    cases hr : (b.pass).2 with
    | false =>
      refine ⟨1, ?_, by omega⟩
      simp [passCount, hr]
    | true =>
      have hlt : (b.pass).1.mass < b.mass := passCells_mass_lt _ b hr
      obtain ⟨k, hk, hk1⟩ := ih (b.pass).1 (by omega)
      refine ⟨k + 1, ?_, by omega⟩
      simp [passCount, hr, hk]

end SudokuMain

/-! ### C4, C5, C3, C10: monotonicity, idempotence, termination, order -/

namespace SudokuMain

theorem applyUpdates_cellAt_subset (ks : List ℕ) : ∀ (b : Board) (j : ℕ),
    ((applyUpdates b ks).cellAt j).candidates ⊆ (b.cellAt j).candidates := by
  induction ks with
  | nil => intro b j; exact subset_refl _
  | cons k ks ih =>
    intro b j
    exact subset_trans (ih _ j) (Board.update_one_cell_cellAt_subset b k j)

/-- C4: a single `update_one_cell` call never adds a candidate to any
cell (the updated one or any other), and hence across any sequence of
`update_one_cell` calls every cell's candidate set is non-increasing. -/
theorem C4_candidates_monotone (b : Board) (ks : List ℕ) (k j : ℕ) :
    ((b.update_one_cell k).1.cellAt j).candidates ⊆ (b.cellAt j).candidates ∧
    ((applyUpdates b ks).cellAt j).candidates ⊆ (b.cellAt j).candidates :=
  ⟨Board.update_one_cell_cellAt_subset b k j, applyUpdates_cellAt_subset ks b j⟩

/-- C5: `update_all_cell` is idempotent — the state it returns is a fixed
point, so a second call changes no cell's value or candidate set. -/
theorem C5_update_all_idempotent (b : Board) :
    (b.update_all_cell).update_all_cell = b.update_all_cell := by
  have hp := update_all_cell_pass b
  show updateLoop ((b.update_all_cell).mass + 1) b.update_all_cell = b.update_all_cell
  simp [updateLoop, hp]

theorem cell_init_card_le (pos v s : ℕ) : (Cell.init pos v s).candidates.card ≤ s := by
  have h1 : (Cell.init pos v s).candidates.card ≤ (Finset.Icc 1 s).card :=
    Finset.card_filter_le _ _
  rwa [Nat.card_Icc, Nat.add_sub_cancel] at h1

theorem Board.init_some (vals : List ℕ) (s : ℕ) (b : Board)
    (h : Board.init vals s = some b) :
    vals.length = s ^ 2 ∧
    b = ⟨vals.enum.map (fun iv => Cell.init iv.1 iv.2 s), s⟩ := by
  rw [Board.init] at h
  split at h
  · exact Option.noConfusion h
  · next hlen =>
    simp only [not_not] at hlen
    exact ⟨hlen, (Option.some.injEq _ _).mp h.symm⟩

theorem Board.init_mass_le (vals : List ℕ) (s : ℕ) (b : Board)
    (h : Board.init vals s = some b) : b.mass ≤ s ^ 3 := by
  obtain ⟨hlen, hb⟩ := Board.init_some vals s b h
  subst hb
  simp only [Board.mass, List.map_map]
  have hbound : ∀ x ∈ vals.enum.map
      ((fun c => c.candidates.card) ∘ fun iv => Cell.init iv.1 iv.2 s), x ≤ s := by
    intro x hx
    obtain ⟨iv, _, hiv⟩ := List.mem_map.mp hx
    rw [← hiv]
    exact cell_init_card_le iv.1 iv.2 s
  have hsum := List.sum_le_card_nsmul _ s hbound
  rw [List.length_map, List.enum_length, hlen] at hsum
  calc (vals.enum.map ((fun c => c.candidates.card) ∘ fun iv => Cell.init iv.1 iv.2 s)).sum
      ≤ s ^ 2 • s := hsum
    _ = s ^ 3 := by rw [smul_eq_mul]; ring

/-- C3, amended: for every board obtained from the constructor, the
fixed-point loop of `update_all_cell` terminates, and it does so within
`size³ + 1` full passes (each pass that continues the loop removes at
least one candidate, and at most `size³` candidates exist); the claimed
bound of `size` passes is refuted by `C3_termination_counterexample`. -/
theorem C3_termination_amended (vals : List ℕ) (s : ℕ) (b : Board)
    (h : Board.init vals s = some b) :
    ∃ k, passCount (s ^ 3 + 1) b = some k ∧ k ≤ s ^ 3 + 1 := by
  have hm : b.mass ≤ s ^ 3 := Board.init_mass_le vals s b h
  obtain ⟨k, hk, hk1⟩ := passCount_terminates (s ^ 3 + 1) b (by omega)
  exact ⟨k, hk, by omega⟩

/-- C3, witness for the amended theorem: the empty 2×2 board terminates
within `2³ + 1` passes. -/
theorem C3_termination_amended_witness :
    ∃ k, passCount (2 ^ 3 + 1)
      (⟨([(0, 0), (1, 0), (2, 0), (3, 0)] : List (ℕ × ℕ)).map
          (fun iv => Cell.init iv.1 iv.2 2), 2⟩ : Board) = some k ∧
      k ≤ 2 ^ 3 + 1 :=
  C3_termination_amended [0, 0, 0, 0] 2 _ rfl

/-- C3, counterexample: on the contradiction-free 4×4 starting
configuration `slowBoard` (size 4), the loop of `update_all_cell` runs
7 full passes — more than `size = 4` — before reaching its fixed point. -/
theorem C3_termination_counterexample :
    slowBoard.size = 4 ∧
    slowBoard.conflictFree = true ∧
    passCount 10 slowBoard = some 7 ∧
    ¬ (7 : ℕ) ≤ 4 := by
  refine ⟨rfl, by decide, by rfl, by decide⟩

/-- C10, amended: for every board (whatever iteration order its cell
collection holds), `update_all_cell` does reach a fixed point: afterwards
a full pass reports no change and no single `update_one_cell` call
changes anything.  The original claim — that the fixed point is the same
for all iteration orders — is refuted by `C10_order_counterexample`. -/
theorem C10_order_amended (b : Board) (k : ℕ) :
    (b.update_all_cell).pass = (b.update_all_cell, false) ∧
    (b.update_all_cell).update_one_cell k = (b.update_all_cell, false) :=
  ⟨update_all_cell_pass b, update_all_cell_update_false b k⟩

/-- C10, counterexample: `orderBoardA` and `orderBoardB` hold exactly the
same sixteen cells (equal as multisets, i.e. the same unordered cell
collection) with the same size, differing only in iteration order, yet
after `update_all_cell` cell id 0 is decided to 4 in one and left
undecided (dead, with no candidates) in the other — the fixed point
depends on the iteration order. -/
theorem C10_order_counterexample :
    (orderBoardA.cells : Multiset Cell) = (orderBoardB.cells : Multiset Cell) ∧
    orderBoardA.size = orderBoardB.size ∧
    (orderBoardA.update_all_cell.get_cell 0).map (fun c => c.value) = some (some 4) ∧
    (orderBoardB.update_all_cell.get_cell 0).map (fun c => c.value) = some none := by
  refine ⟨by decide, rfl, by rfl, by rfl⟩

end SudokuMain

/-! ### C2: propagation never creates a conflict -/

namespace SudokuMain

theorem peersB_iff (c d : Cell) : peersB c d = true ↔
    (c.x = d.x ∨ c.y = d.y ∨ c.block = d.block) := by
  simp [peersB, or_assoc]

theorem okPair_eq_true_iff (c d : Cell) : okPair c d = true ↔
    (∀ v w, c.value = some v → d.value = some w → peersB c d = true → v ≠ w) := by
  cases hc : c.value <;> cases hd : d.value <;>
    simp [okPair, hc, hd]
  cases hb : peersB c d <;> simp [hb]

theorem pairwiseOk_pairwise (l : List Cell) (h : pairwiseOk l = true) :
    List.Pairwise (fun c d => ∀ v w, c.value = some v → d.value = some w →
      (c.x = d.x ∨ c.y = d.y ∨ c.block = d.block) → v ≠ w) l := by
  induction l with
  | nil => exact List.Pairwise.nil
  | cons a t ih =>
    simp only [pairwiseOk, Bool.and_eq_true, List.all_eq_true] at h
    refine List.Pairwise.cons ?_ (ih h.2)
    intro d hd v w hv hw hp
    have hok := h.1 d hd
    rw [okPair_eq_true_iff] at hok
    exact hok v w hv hw ((peersB_iff a d).mpr hp)

theorem pairwiseOk_set (l : List Cell) : ∀ (k : ℕ) (c c' : Cell),
    l[k]? = some c → pairwiseOk l = true →
    (∀ d ∈ l, okPair c d = true → okPair c' d = true) →
    (∀ d ∈ l, okPair d c = true → okPair d c' = true) →
    pairwiseOk (l.set k c') = true := by
  induction l with
  | nil => intro k c c' hk _ _ _; simp at hk
  | cons a t ih =>
    intro k c c' hk hpw h1 h2
    cases k with
    | zero =>
      simp only [List.getElem?_cons_zero, Option.some.injEq] at hk
      subst hk
      simp only [List.set]
      simp only [pairwiseOk, Bool.and_eq_true, List.all_eq_true] at hpw ⊢
      exact ⟨fun d hd => h1 d (List.mem_cons_of_mem _ hd) (hpw.1 d hd), hpw.2⟩
    | succ k =>
      simp only [List.getElem?_cons_succ] at hk
      simp only [List.set]
      simp only [pairwiseOk, Bool.and_eq_true, List.all_eq_true] at hpw ⊢
      constructor
      · intro d hd
        rcases List.mem_or_eq_of_mem_set hd with hd' | hd'
        · exact hpw.1 d hd'
        · subst hd'
          exact h2 a (List.mem_cons_self a t)
            (hpw.1 c (mem_of_getElem?_some t k c hk))
      · exact ih k c c' hk hpw.2
          (fun d hd => h1 d (List.mem_cons_of_mem _ hd))
          (fun d hd => h2 d (List.mem_cons_of_mem _ hd))

theorem mem_remove_set (b : Board) (c d : Cell) (hd : d ∈ b.cells) (w : ℕ)
    (hw : d.value = some w)
    (hp : d.x = c.x ∨ d.y = c.y ∨ d.block = c.block) :
    w ∈ b.remove_set c := by
  rw [Board.remove_set]
  simp only [Finset.mem_union, List.mem_toFinset]
  rcases hp with h | h | h
  · left; left
    exact List.mem_filterMap.mpr
      ⟨d, List.mem_filter.mpr ⟨hd, by simp [h]⟩, hw⟩
  · left; right
    exact List.mem_filterMap.mpr
      ⟨d, List.mem_filter.mpr ⟨hd, by simp [h]⟩, hw⟩
  · right
    exact List.mem_filterMap.mpr
      ⟨d, List.mem_filter.mpr ⟨hd, by simp [h]⟩, hw⟩

theorem update_one_cell_conflictFree (b : Board) (k : ℕ)
    (h : b.conflictFree = true) :
    ((b.update_one_cell k).1).conflictFree = true := by
  cases hc : b.cells[k]? with
  | none => rw [Board.update_one_cell_none b k hc]; exact h
  | some c =>
    rw [Board.update_one_cell_some b k c hc]
    show pairwiseOk (b.cells.set k (c.update_cell (b.remove_set c))) = true
    have hfields := Cell.update_cell_fields c (b.remove_set c)
    rcases Cell.update_cell_value_cases c (b.remove_set c) with hval | ⟨hnone, v, hval, hsv⟩
    · refine pairwiseOk_set b.cells k c _ hc h ?_ ?_
      · intro d hd hok
        rw [okPair_eq_true_iff] at hok ⊢
        intro v w hv hw hp
        refine hok v w (by rw [← hval]; exact hv) hw ?_
        rw [peersB_iff] at hp ⊢
        rw [← hfields.2.1, ← hfields.2.2.1, ← hfields.2.2.2]
        exact hp
      · intro d hd hok
        rw [okPair_eq_true_iff] at hok ⊢
        intro w v hw hv hp
        refine hok w v hw (by rw [← hval]; exact hv) ?_
        rw [peersB_iff] at hp ⊢
        rw [hfields.2.1, hfields.2.2.1, hfields.2.2.2] at hp
        exact hp
    · have hvnot : v ∉ b.remove_set c := by
        have : v ∈ c.candidates \ b.remove_set c := by rw [hsv]; exact Finset.mem_singleton_self v
        exact (Finset.mem_sdiff.mp this).2
      refine pairwiseOk_set b.cells k c _ hc h ?_ ?_
      · intro d hd _
        rw [okPair_eq_true_iff]
        intro v' w hv' hw hp
        rw [hval, Option.some.injEq] at hv'
        subst hv'
        rw [peersB_iff, hfields.2.1, hfields.2.2.1, hfields.2.2.2] at hp
        have hw' : w ∈ b.remove_set c := by
          refine mem_remove_set b c d hd w hw ?_
          rcases hp with h1 | h1 | h1
          · exact Or.inl h1.symm
          · exact Or.inr (Or.inl h1.symm)
          · exact Or.inr (Or.inr h1.symm)
        intro hvw
        exact hvnot (hvw ▸ hw')
      · intro d hd _
        rw [okPair_eq_true_iff]
        intro w v' hw hv' hp
        rw [hval, Option.some.injEq] at hv'
        subst hv'
        rw [peersB_iff, hfields.2.1, hfields.2.2.1, hfields.2.2.2] at hp
        have hw' : w ∈ b.remove_set c := mem_remove_set b c d hd w hw hp
        intro hwv
        exact hvnot (hwv ▸ hw')

theorem passCells_conflictFree (ks : List ℕ) : ∀ (b : Board) (flag : Bool),
    b.conflictFree = true → (passCells b ks flag).1.conflictFree = true := by
  induction ks with
  | nil => intro b flag h; exact h
  | cons k ks ih =>
    intro b flag h
    simp only [passCells]
    exact ih _ _ (update_one_cell_conflictFree b k h)

theorem updateLoop_conflictFree (fuel : ℕ) : ∀ (b : Board),
    b.conflictFree = true → (updateLoop fuel b).conflictFree = true := by
  induction fuel with
  | zero => intro b h; exact h
  | succ fuel ih =>
    intro b h
    have hpass : ((b.pass).1).conflictFree = true := passCells_conflictFree _ b false h
    cases hr : (b.pass).2 with
    | true =>
      have : updateLoop (fuel + 1) b = updateLoop fuel (b.pass).1 := by
        simp [updateLoop, hr]
      rw [this]
      exact ih _ hpass
    | false =>
      have : updateLoop (fuel + 1) b = (b.pass).1 := by
        simp [updateLoop, hr]
      rw [this]
      exact hpass

/-- C2: starting from a contradiction-free board, after `update_all_cell`
no two distinct cells sharing a column, row or block are decided to the
same value. -/
theorem C2_decide_soundness (b : Board) (h : b.conflictFree = true) :
    (b.update_all_cell).conflictFree = true ∧
    List.Pairwise (fun c d => ∀ v w, c.value = some v → d.value = some w →
      (c.x = d.x ∨ c.y = d.y ∨ c.block = d.block) → v ≠ w)
      (b.update_all_cell).cells := by
  have hcf : (b.update_all_cell).conflictFree = true :=
    updateLoop_conflictFree _ b h
  exact ⟨hcf, pairwiseOk_pairwise _ hcf⟩

/-- C2, witness: the contradiction-free board `demoBoard` stays
contradiction-free through `update_all_cell`. -/
theorem C2_decide_soundness_witness :
    demoBoard.conflictFree = true ∧
    (demoBoard.update_all_cell).conflictFree = true :=
  ⟨by decide, (C2_decide_soundness demoBoard (by decide)).1⟩

end SudokuMain

/-! ### C6, C7: board validity and observable contradictions -/

namespace SudokuMain

theorem passCells_size (ks : List ℕ) : ∀ (b : Board) (flag : Bool),
    (passCells b ks flag).1.size = b.size := by
  induction ks with
  | nil => intro b flag; rfl
  | cons k ks ih =>
    intro b flag
    simp only [passCells]
    rw [ih]
    exact Board.update_one_cell_size b k

theorem updateLoop_size (fuel : ℕ) : ∀ (b : Board),
    (updateLoop fuel b).size = b.size := by
  induction fuel with
  | zero => intro b; rfl
  | succ fuel ih =>
    intro b
    cases hr : (b.pass).2 with
    | true =>
      have : updateLoop (fuel + 1) b = updateLoop fuel (b.pass).1 := by
        simp [updateLoop, hr]
      rw [this, ih]
      exact passCells_size _ b false
    | false =>
      have : updateLoop (fuel + 1) b = (b.pass).1 := by
        simp [updateLoop, hr]
      rw [this]
      exact passCells_size _ b false

theorem update_all_cell_size (b : Board) : (b.update_all_cell).size = b.size :=
  updateLoop_size _ b

theorem checkGroup_eq_true_iff (l : List Cell) :
    checkGroup l = true ↔ (decidedValues l).Nodup := by
  rw [checkGroup, beq_iff_eq]
  constructor
  · intro h
    have hsub := List.dedup_sublist (decidedValues l)
    have hd : (decidedValues l).dedup = decidedValues l :=
      List.Sublist.eq_of_length hsub (by rw [h])
    rw [← hd]
    exact List.nodup_dedup _
  · intro h
    rw [List.dedup_eq_self.mpr h]

theorem valid_iff (b : Board) : b.valid = true ↔
    ∀ i < b.size, (decidedValues (b.get_col i)).Nodup ∧
      (decidedValues (b.get_row i)).Nodup ∧
      (decidedValues (b.get_block i)).Nodup := by
  rw [Board.valid]
  simp only [Bool.and_eq_true, List.all_eq_true, List.mem_range]
  constructor
  · rintro ⟨⟨hc, hr⟩, hb⟩ i hi
    exact ⟨(checkGroup_eq_true_iff _).mp (hc i hi),
      (checkGroup_eq_true_iff _).mp (hr i hi),
      (checkGroup_eq_true_iff _).mp (hb i hi)⟩
  · intro h
    exact ⟨⟨fun i hi => (checkGroup_eq_true_iff _).mpr (h i hi).1,
      fun i hi => (checkGroup_eq_true_iff _).mpr (h i hi).2.1⟩,
      fun i hi => (checkGroup_eq_true_iff _).mpr (h i hi).2.2⟩

/-- C6: `Board.valid` returns `true` iff in every column, every row and
every block the decided values are pairwise distinct (undecided cells
and candidate sets are ignored: only `decidedValues` is examined). -/
theorem C6_valid_characterisation (b : Board) : b.valid = true ↔
    ∀ i < b.size, (decidedValues (b.get_col i)).Nodup ∧
      (decidedValues (b.get_row i)).Nodup ∧
      (decidedValues (b.get_block i)).Nodup :=
  valid_iff b

/-- C7: if propagation leaves a cell with no value and an empty candidate
set while the decided values of every group of the resulting board are
duplicate-free, then `Cell.valid` is `false` for that cell while
`Board.valid` is still `true` (board-level validity ignores the dead
cell); no exception is involved — every function here is total. -/
theorem C7_contradiction_observable (b : Board) (c : Cell)
    (_hmem : c ∈ (b.update_all_cell).cells)
    (hval : c.value = none) (hcand : c.candidates = ∅)
    (hnodup : ∀ i < b.size,
      (decidedValues ((b.update_all_cell).get_col i)).Nodup ∧
      (decidedValues ((b.update_all_cell).get_row i)).Nodup ∧
      (decidedValues ((b.update_all_cell).get_block i)).Nodup) :
    c.valid = false ∧ (b.update_all_cell).valid = true := by
  constructor
  · simp [Cell.valid, hval, hcand]
  · rw [valid_iff, update_all_cell_size]
    exact hnodup

/-- C7, witness: on `contraBoard`, propagation drives the cell at list
position 0 (id 0) to no value and no candidates; its `Cell.valid` is
`false` while `Board.valid` of the propagated board is `true`. -/
theorem C7_contradiction_observable_witness :
    ((contraBoard.update_all_cell).cellAt 0).value = none ∧
    ((contraBoard.update_all_cell).cellAt 0).candidates = ∅ ∧
    ((contraBoard.update_all_cell).cellAt 0).valid = false ∧
    (contraBoard.update_all_cell).valid = true := by
  have h := C7_contradiction_observable contraBoard
    ((contraBoard.update_all_cell).cellAt 0)
    (by decide) (by decide) (by decide) (by decide)
  exact ⟨by decide, by decide, h.1, h.2⟩

end SudokuMain

/-! ### C8: construction validation -/

namespace SudokuMain

/-- C8: `Board.__init__` fails exactly when the number of supplied
initial values differs from `size²` (the Python code raises, embedded
here as `none`: the caller obtains no board); on a match it succeeds and
builds one `Cell(k, vals[k], size)` per position `k`. -/
theorem C8_construction_validation (vals : List ℕ) (s : ℕ) :
    (Board.init vals s = none ↔ vals.length ≠ s ^ 2) ∧
    (vals.length = s ^ 2 →
      ∃ b, Board.init vals s = some b ∧ b.size = s ∧
        b.cells.length = s ^ 2 ∧
        ∀ k, k < s ^ 2 →
          b.cells[k]? = some (Cell.init k (vals.getD k 0) s)) := by
  constructor
  · constructor
    · intro h
      by_contra hlen
      rw [Board.init, if_neg (by omega)] at h
      exact Option.noConfusion h
    · intro h
      rw [Board.init, if_pos h]
  · intro hlen
    refine ⟨⟨vals.enum.map (fun iv => Cell.init iv.1 iv.2 s), s⟩, ?_, rfl, ?_, ?_⟩
    · rw [Board.init, if_neg (by rw [hlen]; exact fun h => h rfl)]
    · simp [List.enum_length, hlen]
    · intro k hk
      have hk' : k < vals.length := by omega
      simp only [List.getElem?_map, List.getElem?_enum]
      rw [List.getElem?_eq_getElem hk']
      simp only [Option.map_some', Option.some.injEq]
      congr 1
      rw [List.getD_eq_getElem?_getD, List.getElem?_eq_getElem hk']
      rfl

/-- C8, witness: four values succeed for size 2 (and the board holds one
cell per position), three values fail. -/
theorem C8_construction_validation_witness :
    (∃ b, Board.init [1, 2, 3, 0] 2 = some b ∧ b.size = 2 ∧
      b.cells.length = 2 ^ 2 ∧
      ∀ k, k < 2 ^ 2 →
        b.cells[k]? = some (Cell.init k (([1, 2, 3, 0] : List ℕ).getD k 0) 2)) ∧
    Board.init [1, 2, 3] 2 = none :=
  ⟨(C8_construction_validation [1, 2, 3, 0] 2).2 (by decide),
   (C8_construction_validation [1, 2, 3] 2).1.mpr (by decide)⟩

end SudokuMain

/-! ### C9: geometry of `get_pos` -/

namespace SudokuMain

theorem nat_mul_add_div (r a b : ℕ) (hr : 0 < r) (hb : b < r) :
    (r * a + b) / r = a := by
  rw [Nat.mul_add_div hr, Nat.div_eq_of_lt hb, Nat.add_zero]

theorem nat_mul_add_mod (r a b : ℕ) (hb : b < r) : (r * a + b) % r = b := by
  rw [Nat.mul_add_mod, Nat.mod_eq_of_lt hb]

theorem range_filter_le (r : ℕ) : ∀ (n : ℕ), r < n →
    (List.range n).filter (fun j => decide (j ≤ r)) = List.range (r + 1) := by
  intro n
  induction n with
  | zero => intro h; omega
  | succ n ih =>
    intro h
    rw [List.range_succ, List.filter_append]
    by_cases hrn : r < n
    · rw [ih hrn]
      have hd : decide (n ≤ r) = false := by
        simp only [decide_eq_false_iff_not]
        omega
      have hnil : List.filter (fun j => decide (j ≤ r)) [n] = [] := by
        simp [List.filter, hd]
      rw [hnil, List.append_nil]
    · have hrn' : r = n := by omega
      subst hrn'
      have h1 : (List.range r).filter (fun j => decide (j ≤ r)) = List.range r := by
        refine List.filter_eq_self.mpr fun a ha => ?_
        simp only [decide_eq_true_eq]
        have := List.mem_range.mp ha
        omega
      have hd : decide (r ≤ r) = true := by simp
      have h2 : List.filter (fun j => decide (j ≤ r)) [r] = [r] := by
        simp [List.filter, hd]
      rw [h1, h2]
      exact (List.range_succ r).symm

theorem size_root_sq (r : ℕ) : size_root (r * r) = r := by
  rw [size_root]
  have h2 : (List.range (r * r + 1)).filter (fun j => decide (j * j ≤ r * r))
      = (List.range (r * r + 1)).filter (fun j => decide (j ≤ r)) := by
    refine List.filter_congr fun j _ => ?_
    rw [decide_eq_decide]
    by_cases hj : j ≤ r
    · exact iff_of_true (Nat.mul_le_mul hj hj) hj
    · push_neg at hj
      have hlt : r * r < j * j :=
        lt_of_le_of_lt (Nat.mul_le_mul_left r (Nat.le_of_lt hj))
          (mul_lt_mul_of_pos_right hj (by omega))
      exact iff_of_false (Nat.not_le.mpr hlt) (Nat.not_le.mpr hj)
  have hr2 : r < r * r + 1 := by
    rcases Nat.eq_zero_or_pos r with h0 | h0
    · subst h0; simp
    · have := Nat.le_mul_of_pos_left r h0; omega
  rw [h2, range_filter_le r (r * r + 1) hr2, List.range_succ, List.getLastD_concat]

theorem get_pos_col (p s : ℕ) : (get_pos p s).1 = p % s := rfl

theorem get_pos_row (p s : ℕ) : (get_pos p s).2.1 = p / s := rfl

theorem get_pos_block (p s : ℕ) : (get_pos p s).2.2 =
    size_root s * (p / s / size_root s) + p % s / size_root s := rfl

theorem colFiber_card (s i : ℕ) (hi : i < s) : (colFiber s i).card = s := by
  have h0 : 0 < s := by omega
  have hb : (colFiber s i).card = (Finset.range s).card := by
    refine Finset.card_bij' (fun p _ => p / s) (fun jj _ => i + s * jj) ?_ ?_ ?_ ?_
    · intro p hp
      obtain ⟨hmem, _⟩ := Finset.mem_filter.mp hp
      exact Finset.mem_range.mpr
        ((Nat.div_lt_iff_lt_mul h0).mpr (Finset.mem_range.mp hmem))
    · intro jj hjj
      have hjj' := Finset.mem_range.mp hjj
      refine Finset.mem_filter.mpr ⟨Finset.mem_range.mpr ?_, ?_⟩
      · show i + s * jj < s * s
        calc i + s * jj < s + s * jj := by omega
          _ = s * (jj + 1) := by ring
          _ ≤ s * s := Nat.mul_le_mul_left s (by omega)
      · show (get_pos (i + s * jj) s).1 = i
        rw [get_pos_col, Nat.add_mul_mod_self_left, Nat.mod_eq_of_lt hi]
    · intro p hp
      obtain ⟨_, hcol⟩ := Finset.mem_filter.mp hp
      rw [get_pos_col] at hcol
      show i + s * (p / s) = p
      rw [← hcol]
      exact Nat.mod_add_div p s
    · intro jj hjj
      show (i + s * jj) / s = jj
      rw [Nat.add_mul_div_left i jj h0, Nat.div_eq_of_lt hi, Nat.zero_add]
  rw [hb, Finset.card_range]

theorem rowFiber_card (s i : ℕ) (hi : i < s) : (rowFiber s i).card = s := by
  have h0 : 0 < s := by omega
  have hb : (rowFiber s i).card = (Finset.range s).card := by
    refine Finset.card_bij' (fun p _ => p % s) (fun jj _ => jj + s * i) ?_ ?_ ?_ ?_
    · intro p _
      exact Finset.mem_range.mpr (Nat.mod_lt p h0)
    · intro jj hjj
      have hjj' := Finset.mem_range.mp hjj
      refine Finset.mem_filter.mpr ⟨Finset.mem_range.mpr ?_, ?_⟩
      · show jj + s * i < s * s
        calc jj + s * i < s + s * i := by omega
          _ = s * (i + 1) := by ring
          _ ≤ s * s := Nat.mul_le_mul_left s (by omega)
      · show (get_pos (jj + s * i) s).2.1 = i
        rw [get_pos_row, Nat.add_mul_div_left jj i h0, Nat.div_eq_of_lt hjj',
          Nat.zero_add]
    · intro p hp
      obtain ⟨_, hrow⟩ := Finset.mem_filter.mp hp
      rw [get_pos_row] at hrow
      show p % s + s * i = p
      rw [← hrow]
      exact Nat.mod_add_div p s
    · intro jj hjj
      have hjj' := Finset.mem_range.mp hjj
      show (jj + s * i) % s = jj
      rw [Nat.add_mul_mod_self_left, Nat.mod_eq_of_lt hjj']
  rw [hb, Finset.card_range]

theorem blockFiber_card (r i : ℕ) (hi : i < r * r) :
    (blockFiber (r * r) i).card = r * r := by
  have hr : 0 < r := by
    rcases Nat.eq_zero_or_pos r with h0 | h0
    · subst h0; simp at hi
    · exact h0
  have hs0 : 0 < r * r := Nat.mul_pos hr hr
  have hb : (blockFiber (r * r) i).card = (Finset.range (r * r)).card := by
    refine Finset.card_bij'
      (fun p _ => r * (p / (r * r) % r) + p % (r * r) % r)
      (fun jj _ => (r * r) * (r * (i / r) + jj / r) + (r * (i % r) + jj % r))
      ?_ ?_ ?_ ?_
    · intro p _
      refine Finset.mem_range.mpr ?_
      show r * (p / (r * r) % r) + p % (r * r) % r < r * r
      have h2 : p % (r * r) % r < r := Nat.mod_lt _ hr
      calc r * (p / (r * r) % r) + p % (r * r) % r
          < r * (p / (r * r) % r) + r := Nat.add_lt_add_left h2 _
        _ = r * (p / (r * r) % r + 1) := (Nat.mul_succ _ _).symm
        _ ≤ r * r := Nat.mul_le_mul_left r (by have := Nat.mod_lt (p / (r * r)) hr; omega)
    · intro jj hjj
      have hjj' := Finset.mem_range.mp hjj
      have hjd : jj / r < r := (Nat.div_lt_iff_lt_mul hr).mpr hjj'
      have hjm : jj % r < r := Nat.mod_lt jj hr
      have hir : i / r < r := (Nat.div_lt_iff_lt_mul hr).mpr hi
      have himr : i % r < r := Nat.mod_lt i hr
      have hx : r * (i % r) + jj % r < r * r := by
        calc r * (i % r) + jj % r < r * (i % r) + r := Nat.add_lt_add_left hjm _
          _ = r * (i % r + 1) := (Nat.mul_succ _ _).symm
          _ ≤ r * r := Nat.mul_le_mul_left r (by omega)
      refine Finset.mem_filter.mpr ⟨Finset.mem_range.mpr ?_, ?_⟩
      · show (r * r) * (r * (i / r) + jj / r) + (r * (i % r) + jj % r) < r * r * (r * r)
        calc (r * r) * (r * (i / r) + jj / r) + (r * (i % r) + jj % r)
            < (r * r) * (r * (i / r) + jj / r) + r * r := Nat.add_lt_add_left hx _
          _ = (r * r) * (r * (i / r) + jj / r + 1) := (Nat.mul_succ _ _).symm
          _ ≤ (r * r) * (r * r) := by
              refine Nat.mul_le_mul_left (r * r) ?_
              have : r * (i / r) + jj / r < r * r := by
                calc r * (i / r) + jj / r < r * (i / r) + r := Nat.add_lt_add_left hjd _
                  _ = r * (i / r + 1) := (Nat.mul_succ _ _).symm
                  _ ≤ r * r := Nat.mul_le_mul_left r (by omega)
              omega
      · show (get_pos ((r * r) * (r * (i / r) + jj / r) + (r * (i % r) + jj % r))
          (r * r)).2.2 = i
        rw [get_pos_block, size_root_sq]
        rw [nat_mul_add_div (r * r) _ _ hs0 hx, nat_mul_add_mod (r * r) _ _ hx]
        rw [nat_mul_add_div r _ _ hr hjd, nat_mul_add_div r _ _ hr hjm]
        exact Nat.div_add_mod i r
    · intro p hp
      obtain ⟨hmem, hblk⟩ := Finset.mem_filter.mp hp
      rw [get_pos_block, size_root_sq] at hblk
      have hxr : p % (r * r) / r < r :=
        (Nat.div_lt_iff_lt_mul hr).mpr (Nat.mod_lt p hs0)
      have hid : i / r = p / (r * r) / r := by
        rw [← hblk, nat_mul_add_div r _ _ hr hxr]
      have him : i % r = p % (r * r) / r := by
        rw [← hblk, nat_mul_add_mod r _ _ hxr]
      show (r * r) * (r * (i / r) +
          (r * (p / (r * r) % r) + p % (r * r) % r) / r) +
        (r * (i % r) + (r * (p / (r * r) % r) + p % (r * r) % r) % r) = p
      rw [nat_mul_add_div r _ _ hr (Nat.mod_lt _ hr),
        nat_mul_add_mod r _ _ (Nat.mod_lt _ hr), hid, him]
      rw [Nat.div_add_mod (p / (r * r)) r, Nat.div_add_mod (p % (r * r)) r]
      exact Nat.div_add_mod p (r * r)
    · intro jj hjj
      have hjj' := Finset.mem_range.mp hjj
      have hjd : jj / r < r := (Nat.div_lt_iff_lt_mul hr).mpr hjj'
      have hjm : jj % r < r := Nat.mod_lt jj hr
      have himr : i % r < r := Nat.mod_lt i hr
      have hx : r * (i % r) + jj % r < r * r := by
        calc r * (i % r) + jj % r < r * (i % r) + r := Nat.add_lt_add_left hjm _
          _ = r * (i % r + 1) := (Nat.mul_succ _ _).symm
          _ ≤ r * r := Nat.mul_le_mul_left r (by omega)
      show r * (((r * r) * (r * (i / r) + jj / r) + (r * (i % r) + jj % r))
          / (r * r) % r) +
        ((r * r) * (r * (i / r) + jj / r) + (r * (i % r) + jj % r)) % (r * r) % r = jj
      rw [nat_mul_add_div (r * r) _ _ hs0 hx, nat_mul_add_mod (r * r) _ _ hx]
      rw [nat_mul_add_mod r _ _ hjd, nat_mul_add_mod r _ _ hjm]
      exact Nat.div_add_mod jj r
  rw [hb, Finset.card_range]

end SudokuMain

namespace SudokuMain

theorem get_pos_block_lt (r p : ℕ) (hr : 0 < r) (hp : p < r * r * (r * r)) :
    (get_pos p (r * r)).2.2 < r * r := by
  rw [get_pos_block, size_root_sq]
  have hy : p / (r * r) / r < r :=
    (Nat.div_lt_iff_lt_mul hr).mpr
      ((Nat.div_lt_iff_lt_mul (Nat.mul_pos hr hr)).mpr hp)
  have hx : p % (r * r) / r < r :=
    (Nat.div_lt_iff_lt_mul hr).mpr (Nat.mod_lt p (Nat.mul_pos hr hr))
  calc r * (p / (r * r) / r) + p % (r * r) / r
      < r * (p / (r * r) / r) + r := Nat.add_lt_add_left hx _
    _ = r * (p / (r * r) / r + 1) := (Nat.mul_succ _ _).symm
    _ ≤ r * r := Nat.mul_le_mul_left r (by omega)

/-- C9: for a perfect-square size `s = r * r`, `get_pos` computes exactly
`col = p mod s`, `row = p div s` and
`block = sqrt(s) * (row div sqrt(s)) + (col div sqrt(s))` with
`sqrt(s) = size_root s = r`; and the column, row and block groups each
partition the id set `{0, …, s²−1}`: every id of `range (s*s)` lies in
the group of its own index (which is `< s`), groups of distinct indices
are disjoint, and every group of index `< s` holds exactly `s` ids. -/
theorem C9_geometry (s r : ℕ) (hs : s = r * r) :
    (∀ p, get_pos p s =
      (p % s, p / s, size_root s * (p / s / size_root s) + p % s / size_root s)) ∧
    size_root s = r ∧
    (∀ p, p < s * s →
      (get_pos p s).1 < s ∧ (get_pos p s).2.1 < s ∧ (get_pos p s).2.2 < s ∧
      p ∈ colFiber s (get_pos p s).1 ∧ p ∈ rowFiber s (get_pos p s).2.1 ∧
      p ∈ blockFiber s (get_pos p s).2.2) ∧
    (∀ i j, i ≠ j → Disjoint (colFiber s i) (colFiber s j) ∧
      Disjoint (rowFiber s i) (rowFiber s j) ∧
      Disjoint (blockFiber s i) (blockFiber s j)) ∧
    (∀ i, i < s → (colFiber s i).card = s ∧ (rowFiber s i).card = s ∧
      (blockFiber s i).card = s) := by
  subst hs
  refine ⟨fun p => rfl, size_root_sq r, ?_, ?_, ?_⟩
  · intro p hp
    have hr : 0 < r := by
      rcases Nat.eq_zero_or_pos r with h0 | h0
      · subst h0; simp at hp
      · exact h0
    refine ⟨?_, ?_, get_pos_block_lt r p hr hp, ?_, ?_, ?_⟩
    · rw [get_pos_col]
      exact Nat.mod_lt p (Nat.mul_pos hr hr)
    · rw [get_pos_row]
      exact (Nat.div_lt_iff_lt_mul (Nat.mul_pos hr hr)).mpr hp
    · exact Finset.mem_filter.mpr ⟨Finset.mem_range.mpr hp, rfl⟩
    · exact Finset.mem_filter.mpr ⟨Finset.mem_range.mpr hp, rfl⟩
    · exact Finset.mem_filter.mpr ⟨Finset.mem_range.mpr hp, rfl⟩
  · intro i j hij
    refine ⟨?_, ?_, ?_⟩ <;>
      refine Finset.disjoint_left.mpr fun p hpi hpj => ?_
    · exact hij ((Finset.mem_filter.mp hpi).2.symm.trans (Finset.mem_filter.mp hpj).2)
    · exact hij ((Finset.mem_filter.mp hpi).2.symm.trans (Finset.mem_filter.mp hpj).2)
    · exact hij ((Finset.mem_filter.mp hpi).2.symm.trans (Finset.mem_filter.mp hpj).2)
  · intro i hi
    exact ⟨colFiber_card _ i hi, rowFiber_card _ i hi, blockFiber_card r i hi⟩

/-- C9, witness at `r = 2`, `s = 4`. -/
theorem C9_geometry_witness :
    size_root 4 = 2 ∧
    (get_pos 7 4).2.2 < 4 ∧
    (colFiber 4 1).card = 4 ∧ (rowFiber 4 1).card = 4 ∧
    (blockFiber 4 1).card = 4 := by
  have h := C9_geometry 4 2 (by decide)
  have hc := h.2.2.2.2 1 (by decide)
  exact ⟨h.2.1, (h.2.2.1 7 (by decide)).2.2.1, hc.1, hc.2.1, hc.2.2⟩

end SudokuMain

namespace SudokuMain

/-- C6, witness: the characterisation applied to `demoBoard`. -/
theorem C6_valid_characterisation_witness : demoBoard.valid = true :=
  (C6_valid_characterisation demoBoard).mpr (by decide)

end SudokuMain
